import Mathlib

/-!
Verification of the xiaoyuan-robot voice-interaction client against its
natural-language specification.  The Python sources are shallowly embedded:
strings become `List Char`, byte strings become `List Nat` (each entry a
byte value), wall-clock times become `Int`, and the event-driven network
loops become functions over the list of events they would receive, in
arrival order.  Every definition mirrors the control flow of the cited
Python function; the theorems settle the frozen claims C1..C10.
-/

/-! ## Incremental synthesis scheduler: segmentation and filtering
    (chatbot/voice_assistant.py, `StreamingTTSWorker`) -/

/-- Sentence delimiters of `StreamingTTSWorker.SENTENCE_DELIMITERS`
(voice_assistant.py line 1375). -/
def SENTENCE_DELIMITERS : List Char := ['。', '！', '？', '；', '\n', '!', '?', ';']

/-- Python `str.find`: index of the first occurrence of `c` in `s`,
with `none` standing for the sentinel `-1`. -/
def strFind (s : List Char) (c : Char) : Option Nat :=
  match s with
  | [] => none
  | a :: rest => if a = c then some 0 else (strFind rest c).map (· + 1)

/-- The accumulator update of the delimiter scan (lines 1416-1420): keep the
smaller found index (`-1`, here `none`, never wins). -/
def optMin (x acc : Option Nat) : Option Nat :=
  match x, acc with
  | none, a => a
  | some i, none => some i
  | some i, some j => if i < j then some i else some j

/-- The delimiter scan of `add_text_chunk` (lines 1415-1420): `split_idx`
is the least first-occurrence index over all delimiters. -/
def earliestDelim (s : List Char) : Option Nat :=
  SENTENCE_DELIMITERS.foldl (fun acc d => optMin (strFind s d) acc) none

/-- Python `str.strip`: drop whitespace from both ends. -/
def pyStrip (s : List Char) : List Char :=
  ((s.dropWhile Char.isWhitespace).reverse.dropWhile Char.isWhitespace).reverse

theorem earliestDelim_nil : earliestDelim [] = none := by decide

theorem earliestDelim_ne_nil {s : List Char} {i : Nat}
    (h : earliestDelim s = some i) : s ≠ [] := by
  intro hnil; subst hnil; rw [earliestDelim_nil] at h; exact Option.noConfusion h

/-- The sentence-splitting `while` loop of `add_text_chunk` (lines 1414-1432):
repeatedly cut at the earliest delimiter, emit the stripped sentence when it
is non-empty, and advance the buffer past the delimiter.  Returns the emitted
sentences in order together with the remaining buffer. -/
def segmentLoop (buf : List Char) : List (List Char) × List Char :=
  match h : earliestDelim buf with
  | none => ([], buf)
  | some i =>
    let sentence := pyStrip (buf.take (i + 1))
    let rest := buf.drop (i + 1)
    have hlen : rest.length < buf.length := by
      have hne : buf ≠ [] := earliestDelim_ne_nil h
      have hpos : 0 < buf.length := List.length_pos.mpr hne
      simp only [rest, List.length_drop]
      omega
    let out := segmentLoop rest
    (if sentence = [] then out.1 else sentence :: out.1, out.2)
termination_by buf.length

/-- Embedding of `StreamingTTSWorker.add_text_chunk`: append the chunk to the
buffer and run the splitting loop. -/
def addTextChunk (buffer chunk : List Char) : List (List Char) × List Char :=
  segmentLoop (buffer ++ chunk)

/-- Embedding of `StreamingTTSWorker.finish_text` (lines 1434-1444): the
stripped remainder becomes one final unit when non-empty. -/
def finishUnits (buffer : List Char) : List (List Char) :=
  if pyStrip buffer = [] then [] else [pyStrip buffer]

/-- All units emitted for one complete reply text: the split sentences
followed by the final remainder unit. -/
def streamUnits (text : List Char) : List (List Char) :=
  (segmentLoop text).1 ++ finishUnits (segmentLoop text).2

/-- Sequence numbering of emitted sentences: `chunk_id` starts at 0 and is
incremented after every call of `_start_tts_synthesis` (lines 1431-1432 and
1442-1443), whether or not the unit passes the validity filter. -/
def numberUnits (units : List (List Char)) (start : Nat) : List (Nat × List Char) :=
  match units with
  | [] => []
  | u :: us => (start, u) :: numberUnits us (start + 1)

/-- One character kept by the regex `[^一-龥a-zA-Z0-9]` deletion in
`_is_valid_tts_text` (line 1461): CJK unified ideographs, ASCII letters,
ASCII digits. -/
def isValidTTSChar (c : Char) : Bool :=
  (0x4e00 ≤ c.toNat && c.toNat ≤ 0x9fa5) ||
  ('a' ≤ c && c ≤ 'z') || ('A' ≤ c && c ≤ 'Z') || ('0' ≤ c && c ≤ '9')

/-- Embedding of `StreamingTTSWorker._is_valid_tts_text` (lines 1446-1462):
keep a unit iff at least 2 valid characters remain. -/
def isValidTTSText (t : List Char) : Bool :=
  2 ≤ (t.filter isValidTTSChar).length

/-- The units actually handed to synthesis threads, with their sequence
numbers: `_start_tts_synthesis` (lines 1464-1484) returns early on invalid
text, so only valid units are dispatched, but the numbering above already
consumed an id for every emitted unit. -/
def dispatchedUnits (text : List Char) : List (Nat × List Char) :=
  (numberUnits (streamUnits text) 0).filter (fun p => isValidTTSText p.2)

/-! ## Session/event state machine (robot_controller/core/state_machine.py) -/

inductive RobotState where
  | IDLE | LISTENING | RECOGNIZING | THINKING | SPEAKING | ERROR | SHUTDOWN
  deriving DecidableEq, Fintype

inductive RobotEvent where
  | WAKE_WORD_DETECTED | BUTTON_PRESSED
  | RECORDING_STARTED | SILENCE_DETECTED | RECORDING_TIMEOUT | RECORDING_STOPPED
  | ASR_PARTIAL_RESULT | ASR_FINAL_RESULT | ASR_ERROR
  | CHAT_CHUNK_RECEIVED | CHAT_COMPLETED | CHAT_ERROR
  | TTS_STARTED | TTS_COMPLETED | TTS_INTERRUPTED | TTS_ERROR
  | INTERRUPT_REQUESTED | SHUTDOWN_REQUESTED | ERROR_OCCURRED
  deriving DecidableEq, Fintype

open RobotState RobotEvent in
/-- The transition table `RobotStateMachine.TRANSITIONS` (state_machine.py
lines 86-123), entry for entry. -/
def TRANSITIONS : List (RobotState × List (RobotEvent × RobotState)) :=
  [(IDLE, [(WAKE_WORD_DETECTED, LISTENING), (BUTTON_PRESSED, LISTENING),
           (SHUTDOWN_REQUESTED, SHUTDOWN)]),
   (LISTENING, [(SILENCE_DETECTED, RECOGNIZING), (RECORDING_TIMEOUT, RECOGNIZING),
                (RECORDING_STOPPED, RECOGNIZING), (INTERRUPT_REQUESTED, IDLE),
                (ASR_ERROR, ERROR)]),
   (RECOGNIZING, [(ASR_FINAL_RESULT, THINKING), (ASR_ERROR, ERROR),
                  (INTERRUPT_REQUESTED, IDLE)]),
   (THINKING, [(CHAT_CHUNK_RECEIVED, SPEAKING), (CHAT_COMPLETED, SPEAKING),
               (CHAT_ERROR, ERROR), (INTERRUPT_REQUESTED, IDLE)]),
   (SPEAKING, [(TTS_COMPLETED, IDLE), (TTS_INTERRUPTED, IDLE), (TTS_ERROR, ERROR),
               (INTERRUPT_REQUESTED, IDLE), (WAKE_WORD_DETECTED, LISTENING)]),
   (ERROR, [(WAKE_WORD_DETECTED, LISTENING), (BUTTON_PRESSED, LISTENING),
            (SHUTDOWN_REQUESTED, SHUTDOWN)])]

/-- Table lookup as `_transition` performs it (lines 189-200):
`TRANSITIONS.get(current_state, {})` followed by the event lookup. -/
def tableLookup (s : RobotState) (e : RobotEvent) : Option RobotState :=
  ((TRANSITIONS.lookup s).getD []).lookup e

/-- Embedding of `RobotStateMachine._transition`: the new state and the
returned flag; an event with no table entry leaves the state unchanged and
returns `False` (lines 194-198). -/
def transitionStep (s : RobotState) (e : RobotEvent) : RobotState × Bool :=
  match tableLookup s e with
  | none => (s, false)
  | some s2 => (s2, true)

/-! ## Frame codec (chatbot/voice_assistant.py `ASRWorker`, realtime_mic_asr.py)
    Byte strings are `List Nat`; gzip and JSON are external libraries, so
    compression appears as a function parameter and the decoded result carries
    the exact bytes that would be handed to `json.loads`. -/

/-- Byte read `data[i]` with out-of-range defaulting to 0 (each use is guarded
by a length test in the embedded code) and the byte range made explicit. -/
def byteAt (l : List Nat) (i : Nat) : Nat := l.getD i 0 % 256

/-- Encoding `struct.pack(">I", n)`: four big-endian bytes. -/
def be32 (n : Nat) : List Nat :=
  [n / 16777216 % 256, n / 65536 % 256, n / 256 % 256, n % 256]

/-- Decoding `struct.unpack(">I", data[off:off+4])`. -/
def readBE32 (l : List Nat) (off : Nat) : Nat :=
  byteAt l off * 16777216 + byteAt l (off + 1) * 65536 +
    byteAt l (off + 2) * 256 + byteAt l (off + 3)

/-- Decoding `struct.unpack(">i", data[off:off+4])`: signed 32-bit. -/
def readBE32s (l : List Nat) (off : Nat) : Int :=
  let u := readBE32 l off
  if u < 2147483648 then (u : Int) else (u : Int) - 4294967296

/-- Embedding of `ASRWorker._build_header` (lines 270-296). -/
def buildHeader (mt flags ser comp : Nat) : List Nat :=
  [0x11, 16 * mt + flags, 16 * ser + comp, 0]

/-- Embedding of `ASRWorker._build_full_client_request` (lines 298-323): the
JSON payload is already serialized to bytes, gzip is the parameter `gz`. -/
def buildFullClientRequest (gz : List Nat → List Nat) (payloadBytes : List Nat)
    (useGzip : Bool) : List Nat :=
  let pb := if useGzip then gz payloadBytes else payloadBytes
  buildHeader 1 0 1 (if useGzip then 1 else 0) ++ be32 pb.length ++ pb

/-- Result of `ASRWorker._parse_response`: Python `None`, the error dict, or
a successful parse carrying the bytes handed to `json.loads`. -/
inductive AsrParse where
  | fail
  | errorFrame (code : Int) (msg : List Nat)
  | jsonPayload (payload : List Nat)
  deriving DecidableEq

/-- Embedding of `ASRWorker._parse_response` (lines 356-422); `decomp` is
`gzip.decompress` returning `none` on failure (the code then keeps the
original bytes).  The truncated-error-frame dict of line 386 is rendered as
`errorFrame (-1) []`. -/
def parseResponse (decomp : List Nat → Option (List Nat)) (data : List Nat) : AsrParse :=
  if data.length < 4 then .fail else
  let b1 := byteAt data 1
  let b2 := byteAt data 2
  let message_type := b1 / 16 % 16
  let flags := b1 % 16
  let serialization := b2 / 16 % 16
  let compression := b2 % 16
  let offset := if flags = 1 ∨ flags = 3 then 8 else 4
  if message_type = 15 then
    if data.length < offset + 8 then .errorFrame (-1) [] else
    let error_code := readBE32 data offset
    let error_size := readBE32 data (offset + 4)
    .errorFrame (error_code : Int) ((data.drop (offset + 8)).take error_size)
  else if message_type ≠ 9 then .fail
  else if data.length < offset + 4 then .fail
  else
    let payload_size := readBE32 data offset
    if data.length < offset + 4 + payload_size then .fail
    else
      let payload_bytes := (data.drop (offset + 4)).take payload_size
      let payload2 := if compression = 1 then (decomp payload_bytes).getD payload_bytes
                      else payload_bytes
      if serialization = 1 then .jsonPayload payload2 else .fail

/-- Modelled from the spec: a full-server-response Frame (spec §3, §4.1) as
the remote recognition service would emit it — the server-side encoder is not
part of this repository.  Header with message type `0b1001`, JSON
serialization, compression bits `comp`, optional sequence field `sf`,
big-endian length, payload. -/
def mkServerFrame (flags comp : Nat) (sf payload : List Nat) : List Nat :=
  [0x11, 144 + flags, 16 + comp, 0] ++ sf ++ be32 payload.length ++ payload

/-- Replace the message-type nibble of a frame's second header byte. -/
def setMessageType (mt : Nat) (frame : List Nat) : List Nat :=
  match frame with
  | b0 :: b1 :: rest => b0 :: (16 * mt + b1 % 16) :: rest
  | l => l

/-- The fields of `AsrResponse` in realtime_mic_asr.py (lines 166-185). -/
structure RtAsrResponse where
  code : Int
  event : Int
  isLastPackage : Bool
  payloadSequence : Int
  payloadSize : Nat
  payloadMsg : Option (List Nat)
  deriving DecidableEq

/-- Embedding of `ResponseParser.parse_response` (realtime_mic_asr.py lines
191-241).  Python raises `IndexError`/`struct.error` on short input, modelled
as `Except.error`; a caught decompression failure returns the partially
filled response (the code logs and returns), and `payloadMsg` carries the
bytes handed to `json.loads` when serialization is JSON. -/
def parseRtResponse (decomp : List Nat → Option (List Nat)) (msg : List Nat) :
    Except String RtAsrResponse := do
  if msg.length < 3 then throw "IndexError"
  let header_size := byteAt msg 0 % 16
  let message_type := byteAt msg 1 / 16
  let flags := byteAt msg 1 % 16
  let serialization := byteAt msg 2 / 16
  let compression := byteAt msg 2 % 16
  let p0 := msg.drop (header_size * 4)
  let s1 ← if flags &&& 1 ≠ 0 then
      if p0.length < 4 then throw "struct.error"
      else pure (readBE32s p0 0, p0.drop 4)
    else pure ((0 : Int), p0)
  let seq := s1.1
  let p1 := s1.2
  let isLast := flags &&& 2 ≠ 0
  let s2 ← if flags &&& 4 ≠ 0 then
      if p1.length < 4 then throw "struct.error"
      else pure (readBE32s p1 0, p1.drop 4)
    else pure ((0 : Int), p1)
  let ev := s2.1
  let p2 := s2.2
  let s3 ← if message_type = 9 then
      if p2.length < 4 then throw "struct.error"
      else pure ((0 : Int), readBE32 p2 0, p2.drop 4)
    else if message_type = 15 then
      if p2.length < 4 then throw "struct.error"
      else if p2.length < 8 then throw "struct.error"
      else pure (readBE32s p2 0, readBE32 p2 4, p2.drop 8)
    else pure ((0 : Int), 0, p2)
  let code := s3.1
  let size := s3.2.1
  let p3 := s3.2.2
  if p3 = [] then
    return ⟨code, ev, isLast, seq, size, none⟩
  match (if compression = 1 then decomp p3 else some p3) with
  | none => return ⟨code, ev, isLast, seq, size, none⟩
  | some p4 =>
      return ⟨code, ev, isLast, seq, size, if serialization = 1 then some p4 else none⟩

/-! ## Recognition session send loop (`ASRWorker._send_audio`, lines 503-575)
    Each element of the input list is one non-empty chunk the recorder
    returns, paired with the wall-clock instant (an `Int`) at which the loop
    iteration runs.  The loop carries `last_voice_time` and
    `has_detected_voice`; it breaks — and then sends the zero-length
    is-last-packet frame — when voice has been seen and the silence has
    lasted at least the timeout. -/

/-- Amplitude of one frame: `max(abs(s) for s in samples) if samples else 0`
(lines 545-546). -/
def frameMax (samples : List Int) : Int :=
  (samples.map (fun s => |s|)).foldl max 0

/-- The silence-termination recursion of `_send_audio`'s main `while` loop:
returns `some (t, lv)` when the loop breaks at instant `t` with
`last_voice_time = lv` (the final packet is then sent), `none` when the
input ends without a silence-triggered break. -/
def sendAudioLoop (thr timeout : Int) (lv : Int) (hv : Bool) :
    List (Int × List Int) → Option (Int × Int)
  | [] => none
  | (t, fr) :: rest =>
    let loud := thr < frameMax fr
    let lv2 := if loud then t else lv
    let hv2 := if loud then true else hv
    if hv2 ∧ timeout ≤ t - lv2 then some (t, lv2)
    else sendAudioLoop thr timeout lv2 hv2 rest

/-! ## Synthesis session (chatbot/voice_assistant.py `TTSWorker._stream_tts`
    lines 1218-1335, `StreamingTTSWorker._tts_async` lines 1506-1612)
    A session is driven by the parsed responses it receives, in order; the
    list ending stands for the receive timeout firing. -/

/-- One parsed TTS response as `_parse_tts_response` returns it: the truthy
`error` key, the optional `event` number, the optional audio bytes. -/
structure TTSRes where
  error : Bool
  event : Option Nat
  audio : Option (List Nat)
  deriving DecidableEq

/-- Python `res.get("event", 0)`. -/
def eventD (r : TTSRes) : Nat := r.event.getD 0

/-- Truthiness of `res.get("audio")`: present and non-empty. -/
def audioTruthy (r : TTSRes) : Bool :=
  match r.audio with
  | some a => a ≠ []
  | none => false

/-- Python `res.get("audio", b"")`. -/
def audioD (r : TTSRes) : List Nat := r.audio.getD []

/-- Outcome of `_stream_tts`: a normal return with the accumulated audio, or
an exception carrying the response that caused it (`none` for a gate-step
receive timeout, whose `asyncio.TimeoutError` propagates). -/
inductive TTSOutcome where
  | ok (audio : List Nat)
  | connGateFail (r : Option TTSRes)
  | sessionGateFail (r : Option TTSRes)
  | sessionFailed (r : TTSRes)
  deriving DecidableEq

/-- The receive loop of `_stream_tts` step 5 (lines 1297-1326): an error
response breaks out (audio kept), audio events accumulate, `SessionFinished`
breaks, `SessionFailed` raises, any other event is ignored; exhaustion of the
list is the 30-second receive timeout, which also just breaks. -/
def streamTTSRecv (acc : List Nat) : List TTSRes → TTSOutcome
  | [] => .ok acc
  | r :: rest =>
    if r.error then .ok acc
    else if eventD r = 352 ∨ audioTruthy r then
      streamTTSRecv (acc ++ (if audioD r ≠ [] then audioD r else [])) rest
    else if eventD r = 152 then .ok acc
    else if eventD r = 153 then .sessionFailed r
    else streamTTSRecv acc rest

/-- Embedding of `TTSWorker._stream_tts` (lines 1218-1335) over the received
responses: gate on `ConnectionStarted` (50), gate on `SessionStarted` (150),
send TaskRequest and FinishSession, then run the receive loop. -/
def streamTTS : List TTSRes → TTSOutcome
  | [] => .connGateFail none
  | r1 :: rest =>
    if r1.error ∨ eventD r1 ≠ 50 then .connGateFail (some r1)
    else
      match rest with
      | [] => .sessionGateFail none
      | r2 :: rest2 =>
        if r2.error ∨ eventD r2 ≠ 150 then .sessionGateFail (some r2)
        else streamTTSRecv [] rest2

/-- Embedding of `TTSWorker.run` (lines 1029-1056) after synthesis: an
exception becomes a `tts_error`; a normal return is played as success when
`audio_data` is non-empty and reported as `tts_error` otherwise. -/
def runTTS (events : List TTSRes) : Except String (List Nat) :=
  match streamTTS events with
  | .ok acc => if acc ≠ [] then .ok acc else .error "synthesis failed"
  | .connGateFail _ => .error "connection failed"
  | .sessionGateFail _ => .error "session start failed"
  | .sessionFailed _ => .error "session failed"

/-- The receive loop of `_tts_async` step 5 (lines 1582-1602): error breaks;
audio is appended when present; then — separate `if`s, not `elif` — a
`SessionFinished` or `SessionFailed` event breaks; timeout (end of list)
breaks. -/
def ttsAsyncRecv (acc : List Nat) : List TTSRes → List Nat
  | [] => acc
  | r :: rest =>
    if r.error then acc
    else
      let acc2 := if audioTruthy r then acc ++ audioD r else acc
      if eventD r = 152 then acc2
      else if eventD r = 153 then acc2
      else ttsAsyncRecv acc2 rest

/-- Embedding of `StreamingTTSWorker._tts_async` (lines 1506-1612): failed
gates return `none`; after the receive loop the audio is returned when
non-empty, `none` otherwise (line 1608). -/
def ttsAsync : List TTSRes → Option (List Nat)
  | [] => none
  | r1 :: rest =>
    if r1.error ∨ eventD r1 ≠ 50 then none
    else
      match rest with
      | [] => none
      | r2 :: rest2 =>
        if r2.error ∨ eventD r2 ≠ 150 then none
        else
          let acc := ttsAsyncRecv [] rest2
          if acc ≠ [] then some acc else none

/-! ## Reassembly consumer (`StreamingTTSWorker._play_audio_queue`,
    lines 1711-1775)
    Completed units arrive on the audio queue as `(chunk_id, audio)` pairs;
    `last_chunk_id` starts at `-1`, an arrival equal to `last_chunk_id + 1`
    is played and the pending map drained, any other arrival is stored in
    `pending_chunks`.  The pending map is an association list with
    dict-update semantics. -/

/-- Lookup in `pending_chunks`. -/
def lookupKey (k : Int) (l : List (Int × List Nat)) : Option (List Nat) :=
  List.lookup k l

/-- Removal `pending_chunks.pop(k)`. -/
def eraseKey (k : Int) (l : List (Int × List Nat)) : List (Int × List Nat) :=
  l.filter (fun p => p.1 ≠ k)

/-- Assignment `pending_chunks[k] = v` (dict overwrite). -/
def putKey (k : Int) (v : List Nat) (l : List (Int × List Nat)) :
    List (Int × List Nat) :=
  eraseKey k l ++ [(k, v)]

/-- State of the playback consumer: `last_chunk_id`, `pending_chunks`, and
the units played so far, in play order. -/
structure PlayState where
  last : Int
  pending : List (Int × List Nat)
  played : List (Int × List Nat)
  deriving DecidableEq


theorem lookupKey_mem {k : Int} {l : List (Int × List Nat)} {a : List Nat}
    (h : lookupKey k l = some a) : (k, a) ∈ l := by
  induction l with
  | nil => simp [lookupKey] at h
  | cons p rest ih =>
    rw [lookupKey, List.lookup] at h
    by_cases hk : k = p.1
    · rw [beq_iff_eq.mpr hk] at h
      simp only [] at h
      cases p with
      | mk k1 v1 =>
        obtain rfl := Option.some.inj h
        simp_all
    · rw [beq_eq_false_iff_ne.mpr hk] at h
      simp only [] at h
      exact List.mem_cons_of_mem _ (ih h)

theorem eraseKey_length_lt {k : Int} {l : List (Int × List Nat)} {a : List Nat}
    (h : lookupKey k l = some a) : (eraseKey k l).length < l.length := by
  have hmem : (k, a) ∈ l := lookupKey_mem h
  have : ¬ ((k, a).1 ≠ k) := by simp
  calc (eraseKey k l).length < l.length := by
        refine List.length_filter_lt_length_iff_exists.mpr ?_
        exact ⟨(k, a), hmem, by simp⟩

/-- The inner drain loop of `_play_audio_queue` (lines 1739-1742): while
`last_chunk_id + 1` is in `pending_chunks`, pop it, play it and advance. -/
def drain (st : PlayState) : PlayState :=
  match h : lookupKey (st.last + 1) st.pending with
  | none => st
  | some a =>
    drain { last := st.last + 1,
            pending := eraseKey (st.last + 1) st.pending,
            played := st.played ++ [(st.last + 1, a)] }
termination_by st.pending.length
decreasing_by exact eraseKey_length_lt h

/-- One arrival handled by `_play_audio_queue` (lines 1730-1745): play it at
once and drain when it is the next expected id, store it otherwise. -/
def handleArrival (st : PlayState) (arr : Int × List Nat) : PlayState :=
  if arr.1 = st.last + 1 then
    drain { last := arr.1, pending := st.pending, played := st.played ++ [arr] }
  else
    { st with pending := putKey arr.1 arr.2 st.pending }

/-- The consumer over a whole arrival sequence, from the initial state
`last_chunk_id = -1`, empty pending map, nothing played. -/
def playProcess (st : PlayState) (arrivals : List (Int × List Nat)) : PlayState :=
  arrivals.foldl handleArrival st

/-- Initial consumer state (line 1721-1722). -/
def playInit : PlayState := ⟨-1, [], []⟩

/-! ## Characterization of the delimiter scan -/

/-- Position of the first character that is any sentence delimiter: the
spec's reading of the scan ("the earliest sentence-ending delimiter among a
fixed set"), to be compared with the code's per-delimiter minimum. -/
def firstDelimIdx (s : List Char) : Option Nat :=
  match s with
  | [] => none
  | a :: rest =>
    if a ∈ SENTENCE_DELIMITERS then some 0 else (firstDelimIdx rest).map (· + 1)

theorem optMin_zero_left (acc : Option Nat) : optMin (some 0) acc = some 0 := by
  match acc with
  | none => rfl
  | some j => by_cases hj : 0 < j <;> simp [optMin, hj] <;> omega

theorem optMin_zero_right (x : Option Nat) : optMin x (some 0) = some 0 := by
  match x with
  | none => rfl
  | some i => simp [optMin]

theorem optMin_map (x acc : Option Nat) :
    optMin (x.map (· + 1)) (acc.map (· + 1)) = (optMin x acc).map (· + 1) := by
  match x, acc with
  | none, _ => rfl
  | some i, none => rfl
  | some i, some j =>
    by_cases hij : i < j <;> simp [optMin, hij] <;> omega

/-- Generalized scan over an arbitrary delimiter list with a running
accumulator. -/
def delimScan (ds : List Char) (s : List Char) (acc : Option Nat) : Option Nat :=
  ds.foldl (fun a d => optMin (strFind s d) a) acc

theorem delimScan_zero (ds : List Char) (s : List Char) :
    delimScan ds s (some 0) = some 0 := by
  induction ds with
  | nil => rfl
  | cons d ds ih =>
    rw [delimScan, List.foldl_cons, optMin_zero_right]
    exact ih

theorem delimScan_cons (ds : List Char) (s : List Char) (c : Char) (acc : Option Nat) :
    delimScan ds (c :: s) (acc.map (· + 1)) =
      if c ∈ ds then some 0 else (delimScan ds s acc).map (· + 1) := by
  induction ds generalizing acc with
  | nil => simp [delimScan]
  | cons d ds ih =>
    rw [delimScan, List.foldl_cons]
    by_cases hc : c = d
    · subst hc
      rw [show strFind (c :: s) c = some 0 from by simp [strFind]]
      rw [optMin_zero_left]
      have : delimScan ds (c :: s) (some 0) = some 0 := delimScan_zero ds (c :: s)
      simp [delimScan] at this ⊢
      simp [this]
    · rw [show strFind (c :: s) d = (strFind s d).map (· + 1) from by
        simp [strFind, hc]]
      rw [optMin_map]
      have := ih (optMin (strFind s d) acc)
      simp [delimScan] at this ⊢
      rw [this]
      simp [List.mem_cons, hc]

theorem earliestDelim_cons (c : Char) (s : List Char) :
    earliestDelim (c :: s) =
      if c ∈ SENTENCE_DELIMITERS then some 0 else (earliestDelim s).map (· + 1) := by
  have h := delimScan_cons SENTENCE_DELIMITERS s c none
  simpa [delimScan, earliestDelim] using h

/-- The code's minimum-over-delimiters scan finds exactly the first position
holding any delimiter. -/
theorem earliestDelim_eq_firstDelimIdx (s : List Char) :
    earliestDelim s = firstDelimIdx s := by
  induction s with
  | nil => rw [earliestDelim_nil]; rfl
  | cons c rest ih =>
    rw [earliestDelim_cons, firstDelimIdx, ih]

/-- One unfolding of the splitting loop: no delimiter, loop exits. -/
theorem segmentLoop_none {buf : List Char} (h : earliestDelim buf = none) :
    segmentLoop buf = ([], buf) := by
  rw [segmentLoop]
  split
  · rfl
  · simp_all

/-- One unfolding of the splitting loop at the earliest delimiter `i`: the
stripped sentence up to and including position `i` is emitted when non-empty
and the loop continues past it. -/
theorem segmentLoop_some {buf : List Char} {i : Nat} (h : earliestDelim buf = some i) :
    segmentLoop buf =
      (if pyStrip (buf.take (i + 1)) = [] then (segmentLoop (buf.drop (i + 1))).1
       else pyStrip (buf.take (i + 1)) :: (segmentLoop (buf.drop (i + 1))).1,
       (segmentLoop (buf.drop (i + 1))).2) := by
  rw [segmentLoop]
  split
  · simp_all
  · simp_all

/-! ## Claim C3 — segmentation -/

/-- C3 counterexample: the claim says each unit consists of the text up to
and including the delimiter, but the code strips surrounding whitespace, so
the input "hi\n" yields the unit "hi", not "hi\n". -/
theorem c3_strip_counterexample :
    addTextChunk [] ("hi\n".toList) = (["hi".toList], []) ∧
    ("hi".toList : List Char) ≠ "hi\n".toList := by
  constructor
  · rw [addTextChunk, List.nil_append,
        segmentLoop_some (show earliestDelim "hi\n".toList = some 2 from by decide),
        show "hi\n".toList.drop 3 = ([] : List Char) from by decide,
        segmentLoop_none earliestDelim_nil]
    decide
  · decide

/-- C3 (amended): the segmenter repeatedly splits at the earliest occurrence
of any delimiter in its fixed set — the per-delimiter minimum scan equals
the first position holding any delimiter — each split yielding one unit
consisting of the text up to and including that delimiter with surrounding
whitespace stripped (an empty-after-strip sentence is discarded) and
advancing the buffer past the delimiter; the input "你好。今天天气不错！"
yields exactly the units "你好。" then "今天天气不错！" in that order. -/
theorem c3_segmentation :
    (∀ s : List Char, earliestDelim s = firstDelimIdx s) ∧
    (∀ (buf : List Char) (i : Nat), earliestDelim buf = some i →
        segmentLoop buf =
          (if pyStrip (buf.take (i + 1)) = [] then (segmentLoop (buf.drop (i + 1))).1
           else pyStrip (buf.take (i + 1)) :: (segmentLoop (buf.drop (i + 1))).1,
           (segmentLoop (buf.drop (i + 1))).2)) ∧
    addTextChunk [] ("你好。今天天气不错！".toList) =
      (["你好。".toList, "今天天气不错！".toList], []) := by
  refine ⟨earliestDelim_eq_firstDelimIdx, fun buf i h => segmentLoop_some h, ?_⟩
  rw [addTextChunk, List.nil_append,
      segmentLoop_some (show earliestDelim "你好。今天天气不错！".toList = some 2 from by decide),
      show "你好。今天天气不错！".toList.drop 3 = "今天天气不错！".toList from by decide,
      segmentLoop_some (show earliestDelim "今天天气不错！".toList = some 6 from by decide),
      show "今天天气不错！".toList.drop 7 = ([] : List Char) from by decide,
      segmentLoop_none earliestDelim_nil]
  decide

/-! ## Claim C6 — validity filtering -/

/-- C6: a segmented unit is dispatched to a synthesis session iff its count
of alphanumeric/CJK characters is at least 2; the unit "😊" is dropped with
no synthesis dispatched for it, the unit "ok" is dispatched with its id. -/
theorem c6_filtering :
    (∀ (text : List Char) (p : Nat × List Char),
        p ∈ dispatchedUnits text ↔
          p ∈ numberUnits (streamUnits text) 0 ∧
            2 ≤ (p.2.filter isValidTTSChar).length) ∧
    dispatchedUnits ("😊".toList) = [] ∧
    dispatchedUnits ("ok".toList) = [(0, "ok".toList)] := by
  refine ⟨?_, ?_, ?_⟩
  · intro text p
    simp [dispatchedUnits, List.mem_filter, isValidTTSText]
  · rw [dispatchedUnits, streamUnits,
        segmentLoop_none (show earliestDelim "😊".toList = none from by decide)]
    decide
  · rw [dispatchedUnits, streamUnits,
        segmentLoop_none (show earliestDelim "ok".toList = none from by decide)]
    decide

/-! ## Claim C9 — state machine transitions -/

/-- C9: processing an event changes the state exactly as the transition
table dictates — a defined (state, event) entry moves to its successor with
`True` returned, an undefined one is dropped leaving the state unchanged
with `False` returned, and INTERRUPT_REQUESTED from Listening, Recognizing,
Thinking or Speaking always yields Idle. -/
theorem c9_transition_table :
    (∀ (s : RobotState) (e : RobotEvent) (s2 : RobotState),
        tableLookup s e = some s2 → transitionStep s e = (s2, true)) ∧
    (∀ (s : RobotState) (e : RobotEvent),
        tableLookup s e = none → transitionStep s e = (s, false)) ∧
    (∀ s : RobotState,
        (s = .LISTENING ∨ s = .RECOGNIZING ∨ s = .THINKING ∨ s = .SPEAKING) →
        transitionStep s .INTERRUPT_REQUESTED = (.IDLE, true)) := by
  decide

/-! ## Byte-level lemmas for the codec -/

theorem byteAt_take {l : List Nat} {k i : Nat} (h : i < k) :
    byteAt (l.take k) i = byteAt l i := by
  simp [byteAt, List.getD_eq_getElem?_getD, List.getElem?_take_of_lt h]

theorem readBE32_take {l : List Nat} {k off : Nat} (h : off + 4 ≤ k) :
    readBE32 (l.take k) off = readBE32 l off := by
  rw [readBE32, readBE32,
      byteAt_take (by omega), byteAt_take (by omega),
      byteAt_take (by omega), byteAt_take (by omega)]

theorem byteAt_drop (l : List Nat) (off k : Nat) :
    byteAt (l.drop off) k = byteAt l (off + k) := by
  simp [byteAt, List.getD_eq_getElem?_getD, List.getElem?_drop]

theorem readBE32_drop (l : List Nat) (off : Nat) :
    readBE32 l off = readBE32 (l.drop off) 0 := by
  simp [readBE32, byteAt_drop]

theorem readBE32_be32 (n : Nat) (tail : List Nat) (h : n < 4294967296) :
    readBE32 (be32 n ++ tail) 0 = n := by
  simp [readBE32, be32, byteAt]
  omega

/-- Parsing a frame whose header carries the full-server-response type
`0b1001`, JSON serialization and compression nibble `c` recovers the
length-prefixed payload (after decompression when `c = 1`). -/
theorem parse_server_frame (ungz : List Nat → Option (List Nat)) (c : Nat) (pb : List Nat)
    (hc : c < 16) (hlen : pb.length < 4294967296) :
    parseResponse ungz (17 :: 144 :: (16 + c) :: 0 :: (be32 pb.length ++ pb)) =
      .jsonPayload (if c = 1 then (ungz pb).getD pb else pb) := by
  have hlen4 : (17 :: 144 :: (16 + c) :: 0 :: (be32 pb.length ++ pb)).length
      = 8 + pb.length := by simp [be32]; omega
  have hb1 : byteAt (17 :: 144 :: (16 + c) :: 0 :: (be32 pb.length ++ pb)) 1 = 144 := by
    simp [byteAt]
  have hb2 : byteAt (17 :: 144 :: (16 + c) :: 0 :: (be32 pb.length ++ pb)) 2 = 16 + c := by
    simp [byteAt]
    omega
  have hrd : readBE32 (17 :: 144 :: (16 + c) :: 0 :: (be32 pb.length ++ pb)) 4
      = pb.length := by
    rw [readBE32_drop]
    rw [show (17 :: 144 :: (16 + c) :: 0 :: (be32 pb.length ++ pb)).drop 4
        = be32 pb.length ++ pb from rfl]
    exact readBE32_be32 _ _ hlen
  rw [parseResponse]
  rw [if_neg (by rw [hlen4]; omega)]
  simp only [hb1, hb2, hrd]
  have e1 : (144 : Nat) / 16 % 16 = 9 := by norm_num
  have e2 : (144 : Nat) % 16 = 0 := by norm_num
  have e3 : (16 + c) / 16 % 16 = 1 := by omega
  have e4 : (16 + c) % 16 = c := by omega
  have e5 : (if (0:Nat) = 1 ∨ (0:Nat) = 3 then (8:Nat) else 4) = 4 := by norm_num
  have hbe : (be32 pb.length).length = 4 := by simp [be32]
  simp only [e1, e2, e3, e4, e5]
  norm_num [hbe]
  rw [hrd, if_neg (by omega), if_neg (by omega), List.take_length]

/-! ## Claim C4 — encode/decode round trip -/

/-- C4 counterexample: the decoder `_parse_response` only accepts frames of
message type `0b1001` (full server response), while the encoder
`_build_full_client_request` emits type `0b0001`, so decoding an encoded
request returns `None` instead of recovering the payload, under both
compression settings. -/
theorem c4_type_mismatch_counterexample :
    parseResponse (fun b => some b) (buildFullClientRequest (fun b => b) [123, 125] false)
      = .fail ∧
    parseResponse (fun b => some b) (buildFullClientRequest (fun b => b) [123, 125] true)
      = .fail ∧
    AsrParse.fail ≠ AsrParse.jsonPayload [123, 125] := by
  decide

/-- C4 (amended): the encoder's framing — header, big-endian 32-bit length
of the post-compression payload, payload — round-trips through the decoder
once the message-type nibble is the full-server-response type the decoder
accepts: parsing the encoder's bytes with the type nibble set to `0b1001`
yields exactly the original payload after decompression, for both
compression settings. -/
theorem c4_roundtrip :
    ∀ (gz : List Nat → List Nat) (ungz : List Nat → Option (List Nat))
      (payloadBytes : List Nat) (useGzip : Bool),
      (∀ bs, ungz (gz bs) = some bs) →
      (if useGzip then gz payloadBytes else payloadBytes).length < 4294967296 →
      parseResponse ungz
        (setMessageType 9 (buildFullClientRequest gz payloadBytes useGzip)) =
        .jsonPayload payloadBytes := by
  intro gz ungz payloadBytes useGzip hinv hlen
  cases useGzip with
  | false =>
    have hfr : setMessageType 9 (buildFullClientRequest gz payloadBytes false)
        = 17 :: 144 :: (16 + 0) :: 0 :: (be32 payloadBytes.length ++ payloadBytes) := by
      simp [setMessageType, buildFullClientRequest, buildHeader]
    rw [hfr, parse_server_frame ungz 0 payloadBytes (by norm_num) (by simpa using hlen)]
    norm_num
  | true =>
    have hfr : setMessageType 9 (buildFullClientRequest gz payloadBytes true)
        = 17 :: 144 :: (16 + 1) :: 0 :: (be32 (gz payloadBytes).length ++ gz payloadBytes) := by
      simp [setMessageType, buildFullClientRequest, buildHeader]
    rw [hfr, parse_server_frame ungz 1 (gz payloadBytes) (by norm_num) (by simpa using hlen)]
    simp [hinv]

theorem c4_roundtrip_witness :
    parseResponse (fun b => some b)
      (setMessageType 9 (buildFullClientRequest (fun b => b) [123, 125] true)) =
      .jsonPayload [123, 125] :=
  c4_roundtrip (fun b => b) (fun b => some b) [123, 125] true (fun bs => rfl) (by decide)

/-! ## Claim C5 — truncated frames -/

/-- C5 counterexample: `ResponseParser.parse_response` in realtime_mic_asr.py
performs no length checks, so on the 4-byte truncation of a valid full
server response it raises `struct.error` (the `Except.error` here) instead
of returning a failure value. -/
theorem c5_raise_counterexample :
    parseRtResponse (fun b => some b) [17, 144, 16, 0, 0, 0, 0, 2, 123, 125]
      = .ok ⟨0, 0, false, 0, 2, some [123, 125]⟩ ∧
    [17, 144, 16, 0] = ([17, 144, 16, 0, 0, 0, 0, 2, 123, 125] : List Nat).take 4 ∧
    parseRtResponse (fun b => some b) [17, 144, 16, 0] = .error "struct.error" :=
  ⟨rfl, rfl, rfl⟩

/-- C5 (amended): the voice_assistant decoder `_parse_response` returns the
failure value `None` on every strict prefix of a valid full-server-response
frame and never a partially interpreted success; the realtime_mic_asr
decoder, by contrast, raises on truncated input. -/
theorem c5_truncated_prefix :
    ∀ (decomp : List Nat → Option (List Nat)) (flags comp : Nat)
      (sf payload : List Nat) (k : Nat),
      ((flags = 0 ∧ sf = []) ∨ ((flags = 1 ∨ flags = 3) ∧ sf.length = 4)) →
      comp < 16 →
      payload.length < 4294967296 →
      k < (mkServerFrame flags comp sf payload).length →
      parseResponse decomp ((mkServerFrame flags comp sf payload).take k) = .fail := by
  intro decomp flags comp sf payload k hsf hcomp hlen hk
  have hflags16 : flags < 16 := by rcases hsf with ⟨h, _⟩ | ⟨h | h, _⟩ <;> omega
  have hL : (mkServerFrame flags comp sf payload).length
      = 8 + sf.length + payload.length := by
    simp [mkServerFrame, be32]
    omega
  rw [hL] at hk
  have htl : ((mkServerFrame flags comp sf payload).take k).length = k := by
    rw [List.length_take, hL]
    omega
  by_cases hk4 : k < 4
  · rw [parseResponse, if_pos (by rw [htl]; omega)]
  · push_neg at hk4
    have hb1 : byteAt ((mkServerFrame flags comp sf payload).take k) 1 = 144 + flags := by
      rw [byteAt_take (by omega)]
      simp [mkServerFrame, byteAt]
      omega
    have hb2 : byteAt ((mkServerFrame flags comp sf payload).take k) 2 = 16 + comp := by
      rw [byteAt_take (by omega)]
      simp [mkServerFrame, byteAt]
      omega
    have e1 : (144 + flags) / 16 % 16 = 9 := by omega
    have e2 : (144 + flags) % 16 = flags := by omega
    have hoff : (if flags = 1 ∨ flags = 3 then (8:Nat) else 4) = 4 + sf.length := by
      rcases hsf with ⟨h0, hs0⟩ | ⟨h13, hs4⟩
      · subst h0
        simp [hs0]
      · rw [if_pos h13, hs4]
    rw [parseResponse, if_neg (by rw [htl]; omega)]
    simp only [hb1, hb2, e1, e2, hoff]
    rw [if_neg (by norm_num), if_neg (by norm_num)]
    by_cases hk8 : k < 4 + sf.length + 4
    · rw [if_pos (by rw [htl]; omega)]
    · push_neg at hk8
      rw [if_neg (by rw [htl]; omega)]
      have hdropF : (mkServerFrame flags comp sf payload).drop (4 + sf.length)
          = be32 payload.length ++ payload := by
        rw [show mkServerFrame flags comp sf payload
            = ([17, 144 + flags, 16 + comp, 0] ++ sf) ++ (be32 payload.length ++ payload)
            from by simp [mkServerFrame]]
        rw [show 4 + sf.length = ([17, 144 + flags, 16 + comp, 0] ++ sf).length from by
          simp
          omega]
        exact List.drop_left _ _
      have hrd : readBE32 ((mkServerFrame flags comp sf payload).take k) (4 + sf.length)
          = payload.length := by
        rw [readBE32_take (by omega), readBE32_drop, hdropF]
        exact readBE32_be32 _ _ hlen
      rw [hrd, if_pos (by rw [htl]; omega)]

theorem c5_truncated_prefix_witness :
    parseResponse (fun b => some b) ((mkServerFrame 0 0 [] [123, 125]).take 5)
      = .fail :=
  c5_truncated_prefix (fun b => some b) 0 0 [] [123, 125] 5 (Or.inl ⟨rfl, rfl⟩)
    (by decide) (by decide) (by decide)

/-! ## Claim C7 — synthesis session gating -/

/-- C7 counterexample: an error event received during the phase gated on
SessionFinished does not abort the session — the receive loop merely breaks
and the session returns (and reports) the audio accumulated so far as a
success, proceeding to FinishConnection. -/
theorem c7_receive_error_counterexample :
    streamTTS [⟨false, some 50, none⟩, ⟨false, some 150, none⟩,
               ⟨false, some 352, some [7]⟩, ⟨true, none, none⟩] = .ok [7] ∧
    runTTS [⟨false, some 50, none⟩, ⟨false, some 150, none⟩,
            ⟨false, some 352, some [7]⟩, ⟨true, none, none⟩] = .ok [7] ∧
    (⟨true, none, none⟩ : TTSRes).error = true :=
  ⟨rfl, rfl, rfl⟩

/-- C7 (amended): the five-phase protocol is gated as claimed at the first
two steps — StartConnection waits for ConnectionStarted (50) and StartSession
for SessionStarted (150), any error or other event there aborting with that
response surfaced — and in the receive phase a SessionFailed event (153)
aborts with the response surfaced; but there an error frame only terminates
reception with the accumulated audio still returned, and an unexpected
non-error event is skipped rather than aborting. -/
theorem c7_phase_gating :
    (∀ (r : TTSRes) (rest : List TTSRes),
        r.error = true ∨ eventD r ≠ 50 →
        streamTTS (r :: rest) = .connGateFail (some r)) ∧
    (∀ (r1 r2 : TTSRes) (rest : List TTSRes),
        r1.error = false → eventD r1 = 50 →
        r2.error = true ∨ eventD r2 ≠ 150 →
        streamTTS (r1 :: r2 :: rest) = .sessionGateFail (some r2)) ∧
    (∀ (acc : List Nat) (r : TTSRes) (rest : List TTSRes),
        r.error = false → eventD r = 153 → audioTruthy r = false →
        streamTTSRecv acc (r :: rest) = .sessionFailed r) ∧
    (∀ (acc : List Nat) (r : TTSRes) (rest : List TTSRes),
        r.error = true → streamTTSRecv acc (r :: rest) = .ok acc) ∧
    (∀ (acc : List Nat) (r : TTSRes) (rest : List TTSRes),
        r.error = false → audioTruthy r = false →
        eventD r ≠ 352 → eventD r ≠ 152 → eventD r ≠ 153 →
        streamTTSRecv acc (r :: rest) = streamTTSRecv acc rest) := by
  refine ⟨?_, ?_, ?_, ?_, ?_⟩
  · intro r rest h
    have : (r.error = true ∨ eventD r ≠ 50) = True := eq_true h
    simp [streamTTS, h]
  · intro r1 r2 rest h1 h2 h3
    simp [streamTTS, h1, h2, h3]
  · intro acc r rest h1 h2 h3
    simp [streamTTSRecv, h1, h2, h3]
  · intro acc r rest h1
    simp [streamTTSRecv, h1]
  · intro acc r rest h1 h2 h3 h4 h5
    simp [streamTTSRecv, h1, h2, h3, h4, h5]

/-! ## Claim C8 — receive timeout handling -/

/-- C8 counterexample: a receive timeout (end of the received events) with no
SessionFinished (152) in the trace still delivers the accumulated audio as a
successful result, in both `_tts_async` and `_stream_tts`/`run`. -/
theorem c8_timeout_counterexample :
    ttsAsync [⟨false, some 50, none⟩, ⟨false, some 150, none⟩,
              ⟨false, some 352, some [7]⟩] = some [7] ∧
    runTTS [⟨false, some 50, none⟩, ⟨false, some 150, none⟩,
            ⟨false, some 352, some [7]⟩] = .ok [7] ∧
    (∀ r ∈ [(⟨false, some 50, none⟩ : TTSRes), ⟨false, some 150, none⟩,
            ⟨false, some 352, some [7]⟩], eventD r ≠ 152) := by
  refine ⟨rfl, rfl, by decide⟩

/-- C8 (amended): when the receive loop ends without SessionFinished, the
session is reported as a failure only if no audio was accumulated; when some
audio was accumulated it is delivered as a successful result — the code does
not distinguish a truncated synthesis from a complete one. -/
theorem c8_timeout_partial_audio :
    (∀ rest : List TTSRes, ttsAsyncRecv [] rest = [] →
        ttsAsync (⟨false, some 50, none⟩ :: ⟨false, some 150, none⟩ :: rest) = none) ∧
    (∀ (rest : List TTSRes) (acc : List Nat),
        ttsAsyncRecv [] rest = acc → acc ≠ [] →
        ttsAsync (⟨false, some 50, none⟩ :: ⟨false, some 150, none⟩ :: rest) = some acc) := by
  constructor
  · intro rest h
    simp [ttsAsync, eventD, h]
  · intro rest acc h hne
    simp [ttsAsync, eventD, h, hne]

/-! ## Claim C2 — voice-activity silence termination -/

theorem sendAudioLoop_no_voice (thr timeout : Int) :
    ∀ (frames : List (Int × List Int)) (lv : Int),
      (∀ p ∈ frames, ¬ thr < frameMax p.2) →
      sendAudioLoop thr timeout lv false frames = none := by
  intro frames
  induction frames with
  | nil => intro lv h; rfl
  | cons p rest ih =>
    intro lv h
    obtain ⟨t, fr⟩ := p
    have hq : ¬ thr < frameMax fr := h (t, fr) (List.mem_cons_self _ _)
    rw [sendAudioLoop]
    simp only [if_neg hq, eq_self_iff_true]
    rw [if_neg (by simp)]
    exact ih lv (fun q hque => h q (List.mem_cons_of_mem _ hque))

theorem sendAudioLoop_loud_run (thr timeout : Int) (ht : 0 < timeout) :
    ∀ (A B : List (Int × List Int)) (lv : Int) (hv : Bool) (hA : A ≠ []),
      (∀ p ∈ A, thr < frameMax p.2) →
      sendAudioLoop thr timeout lv hv (A ++ B) =
        sendAudioLoop thr timeout (A.getLast hA).1 true B := by
  intro A
  induction A with
  | nil => intro B lv hv hA; exact absurd rfl hA
  | cons a A ih =>
    intro B lv hv hA hloud
    obtain ⟨t, fr⟩ := a
    have hl : thr < frameMax fr := hloud (t, fr) (List.mem_cons_self _ _)
    rw [List.cons_append, sendAudioLoop]
    simp only [if_pos hl]
    rw [if_neg (by simp; omega)]
    cases A with
    | nil =>
      simp [List.getLast]
    | cons b A2 =>
      rw [show ((t, fr) :: b :: A2).getLast hA = (b :: A2).getLast (by simp)
          from List.getLast_cons _]
      exact ih B t true (by simp) (fun q hq => hloud q (List.mem_cons_of_mem _ hq))

theorem sendAudioLoop_quiet_run (thr timeout : Int) :
    ∀ (B : List (Int × List Int)) (lv : Int),
      (∀ p ∈ B, ¬ thr < frameMax p.2) →
      sendAudioLoop thr timeout lv true B =
        (B.find? (fun p => decide (timeout ≤ p.1 - lv))).map (fun p => (p.1, lv)) := by
  intro B
  induction B with
  | nil => intro lv h; rfl
  | cons b B ih =>
    intro lv h
    obtain ⟨t, fr⟩ := b
    have hq : ¬ thr < frameMax fr := h (t, fr) (List.mem_cons_self _ _)
    rw [sendAudioLoop]
    simp only [if_neg hq]
    by_cases hcond : timeout ≤ t - lv
    · rw [if_pos (by simp [hcond])]
      rw [List.find?_cons_of_pos _ (by simp [hcond])]
      simp
    · rw [if_neg (by simp [hcond])]
      rw [List.find?_cons_of_neg _ (by simp [hcond])]
      exact ih lv (fun q hque => h q (List.mem_cons_of_mem _ hque))

theorem find?_split {α : Type} (q : α → Bool) :
    ∀ {l : List α} {a : α}, l.find? q = some a →
      ∃ pre post, l = pre ++ a :: post ∧ ∀ x ∈ pre, q x = false := by
  intro l
  induction l with
  | nil => intro a h; simp [List.find?] at h
  | cons b l ih =>
    intro a h
    by_cases hb : q b = true
    · rw [List.find?_cons_of_pos _ hb] at h
      obtain rfl := Option.some.inj h
      exact ⟨[], l, by simp, by simp⟩
    · rw [List.find?_cons_of_neg _ (by simpa using hb)] at h
      obtain ⟨pre, post, rfl, hpre⟩ := ih h
      refine ⟨b :: pre, post, by simp, ?_⟩
      intro x hx
      rcases List.mem_cons.mp hx with rfl | hx2
      · simpa using hb
      · exact hpre x hx2

theorem dropWhile_head_false {α : Type} (q : α → Bool) :
    ∀ {l : List α} {b : α} {t : List α}, l.dropWhile q = b :: t → q b = false := by
  intro l
  induction l with
  | nil => intro b t h; simp [List.dropWhile] at h
  | cons a l ih =>
    intro b t h
    rw [List.dropWhile] at h
    by_cases ha : q a = true
    · rw [ha] at h
      simp at h
      exact ih h
    · rw [Bool.not_eq_true] at ha
      rw [ha] at h
      simp at h
      obtain ⟨rfl, rfl⟩ := h
      exact ha

theorem dropWhile_gt (t0 : Int) (frames : List (Int × List Int))
    (hmono : frames.Pairwise (fun x y => x.1 ≤ y.1)) :
    ∀ p ∈ frames.dropWhile (fun r => decide (r.1 ≤ t0)), t0 < p.1 := by
  intro p hp
  cases hBc : frames.dropWhile (fun r => decide (r.1 ≤ t0)) with
  | nil => rw [hBc] at hp; simp at hp
  | cons b t =>
    rw [hBc] at hp
    have hhead := dropWhile_head_false _ hBc
    have hb2 : t0 < b.1 := by simpa using hhead
    have hBpair : (b :: t).Pairwise (fun x y : Int × List Int => x.1 ≤ y.1) := by
      rw [← hBc]
      exact hmono.sublist (List.dropWhile_sublist _)
    rcases List.mem_cons.mp hp with rfl | hpt
    · exact hb2
    · have := (List.pairwise_cons.mp hBpair).1 p hpt
      omega

theorem sendAudioLoop_loud_then_silent (thr timeout lv0 t0 : Int) (fr0 : List Int)
    (frames : List (Int × List Int)) (tb lvb : Int)
    (ht : 0 < timeout)
    (hmono : (frames.map Prod.fst).Pairwise (· ≤ ·))
    (hmem : (t0, fr0) ∈ frames)
    (hall : ∀ p ∈ frames, p.1 ≤ t0 → thr < frameMax p.2)
    (hafter : ∀ p ∈ frames, t0 < p.1 → ¬ thr < frameMax p.2)
    (hrun : sendAudioLoop thr timeout lv0 false frames = some (tb, lvb)) :
    lvb = t0 ∧ t0 + timeout ≤ tb ∧
      ∀ p ∈ frames, p.1 < tb → p.1 < t0 + timeout := by
  have hfp : frames.Pairwise (fun x y : Int × List Int => x.1 ≤ y.1) :=
    List.pairwise_map.mp hmono
  set q : (Int × List Int) → Bool := fun r => decide (r.1 ≤ t0) with hq
  set A := frames.takeWhile q with hA
  set B := frames.dropWhile q with hB
  have hAB : frames = A ++ B := (List.takeWhile_append_dropWhile q frames).symm
  have hApair : A.Pairwise (fun x y : Int × List Int => x.1 ≤ y.1) :=
    hfp.sublist (List.takeWhile_sublist _)
  have hBpair : B.Pairwise (fun x y : Int × List Int => x.1 ≤ y.1) :=
    hfp.sublist (List.dropWhile_sublist _)
  have hA_le : ∀ p ∈ A, p.1 ≤ t0 := by
    intro p hp
    have := List.mem_takeWhile_imp hp
    simpa [hq] using this
  have hA_loud : ∀ p ∈ A, thr < frameMax p.2 := by
    intro p hp
    exact hall p (hAB ▸ List.mem_append_left _ hp) (hA_le p hp)
  have hB_gt : ∀ p ∈ B, t0 < p.1 := dropWhile_gt t0 frames hfp
  have hB_quiet : ∀ p ∈ B, ¬ thr < frameMax p.2 := by
    intro p hp
    exact hafter p (hAB ▸ List.mem_append_right _ hp) (hB_gt p hp)
  have hmemA : (t0, fr0) ∈ A := by
    rcases List.mem_append.mp (hAB ▸ hmem) with h | h
    · exact h
    · exact absurd (hB_gt _ h) (by simp)
  have hAne : A ≠ [] := List.ne_nil_of_mem hmemA
  have hlast_le : (A.getLast hAne).1 ≤ t0 := hA_le _ (List.getLast_mem hAne)
  have hlast_ge : t0 ≤ (A.getLast hAne).1 := by
    have hdec := List.dropLast_append_getLast hAne
    have hmemA2 : (t0, fr0) ∈ A.dropLast ++ [A.getLast hAne] := by
      rw [hdec]
      exact hmemA
    have hp2 : (A.dropLast ++ [A.getLast hAne]).Pairwise
        (fun x y : Int × List Int => x.1 ≤ y.1) := by
      rw [hdec]
      exact hApair
    rcases List.mem_append.mp hmemA2 with h | h
    · exact (List.pairwise_append.mp hp2).2.2 (t0, fr0) h _ (List.mem_singleton_self _)
    · rw [← List.mem_singleton.mp h]
  have hlast : (A.getLast hAne).1 = t0 := le_antisymm hlast_le hlast_ge
  rw [hAB, sendAudioLoop_loud_run thr timeout ht A B lv0 false hAne hA_loud, hlast,
      sendAudioLoop_quiet_run thr timeout B t0 hB_quiet] at hrun
  obtain ⟨p, hfind, heq⟩ := Option.map_eq_some'.mp hrun
  simp only [Prod.mk.injEq] at heq
  obtain ⟨hp1, hp2⟩ := heq
  have hpred : timeout ≤ p.1 - t0 := by
    have := List.find?_some hfind
    simpa using this
  refine ⟨hp2.symm, by omega, ?_⟩
  intro r hr hrtb
  rcases List.mem_append.mp (hAB ▸ hr) with hrA | hrB
  · have := hA_le r hrA
    omega
  · obtain ⟨pre, post, hsplit, hpre⟩ := find?_split _ hfind
    rw [hsplit] at hrB hBpair
    rcases List.mem_append.mp hrB with hrpre | hrpost
    · have := hpre r hrpre
      simp at this
      omega
    · rcases List.mem_cons.mp hrpost with rfl | hrpost2
      · omega
      · have hpp := (List.pairwise_append.mp hBpair).2.1
        have := (List.pairwise_cons.mp hpp).1 r hrpost2
        omega

/-- C2: in the audio-send loop, silence never triggers termination before
any frame has exceeded the amplitude threshold (the `has_detected_voice`
flag gates the check); and for a source loud up to time `t0` (some frame at
`t0`, all frames at times ≤ `t0` over threshold) and silent after, a
silence-triggered break happens with `last_voice_time = t0`, at a frame time
at least `t0 + silenceTimeout`, and at the first frame time that late — so
the zero-length is-last-packet frame is sent at time ≥ t0 + silenceTimeout. -/
theorem c2_silence_termination :
    (∀ (thr timeout lv : Int) (frames : List (Int × List Int)),
        (∀ p ∈ frames, ¬ thr < frameMax p.2) →
        sendAudioLoop thr timeout lv false frames = none) ∧
    (∀ (thr timeout lv0 t0 : Int) (fr0 : List Int)
        (frames : List (Int × List Int)) (tb lvb : Int),
        0 < timeout →
        (frames.map Prod.fst).Pairwise (· ≤ ·) →
        (t0, fr0) ∈ frames →
        (∀ p ∈ frames, p.1 ≤ t0 → thr < frameMax p.2) →
        (∀ p ∈ frames, t0 < p.1 → ¬ thr < frameMax p.2) →
        sendAudioLoop thr timeout lv0 false frames = some (tb, lvb) →
        lvb = t0 ∧ t0 + timeout ≤ tb ∧
          ∀ p ∈ frames, p.1 < tb → p.1 < t0 + timeout) :=
  ⟨fun thr timeout lv frames h => sendAudioLoop_no_voice thr timeout frames lv h,
   fun thr timeout lv0 t0 fr0 frames tb lvb ht hmono hmem hall hafter hrun =>
     sendAudioLoop_loud_then_silent thr timeout lv0 t0 fr0 frames tb lvb
       ht hmono hmem hall hafter hrun⟩

/-! ## Claim C1 — ordered reassembly playback -/

/-! ## reachFrom: the least sequence number at or after r that is not in T -/

theorem le_foldr_max (l : List Nat) : ∀ n ∈ l, n ≤ l.foldr max 0 := by
  induction l with
  | nil => intro n h; simp at h
  | cons a l ih =>
    intro n h
    rcases List.mem_cons.mp h with rfl | h2
    · simp [List.foldr]
    · have := ih n h2
      simp [List.foldr]
      omega

theorem exists_gap (T : List Int) (r : Nat) :
    ∃ m : Nat, (((r + m : Nat) : Int)) ∉ T := by
  refine ⟨(T.map Int.toNat).foldr max 0 + 1, fun hmem => ?_⟩
  have h1 : ((r + ((T.map Int.toNat).foldr max 0 + 1) : Nat) : Int).toNat
      ≤ (T.map Int.toNat).foldr max 0 :=
    le_foldr_max _ _ (List.mem_map_of_mem _ hmem)
  simp at h1
  omega

/-- The least `n ≥ r` with `(n : Int) ∉ T`. -/
def reachFrom (T : List Int) (r : Nat) : Nat :=
  r + Nat.find (exists_gap T r)

theorem reachFrom_ge (T : List Int) (r : Nat) : r ≤ reachFrom T r :=
  Nat.le_add_right r _

theorem reachFrom_not_mem (T : List Int) (r : Nat) :
    ((reachFrom T r : Nat) : Int) ∉ T :=
  Nat.find_spec (exists_gap T r)

theorem mem_of_lt_reachFrom {T : List Int} {r i : Nat}
    (h1 : r ≤ i) (h2 : i < reachFrom T r) : ((i : Nat) : Int) ∈ T := by
  have hm : i - r < Nat.find (exists_gap T r) := by
    have := reachFrom_ge T r
    simp [reachFrom] at h2
    omega
  have := Nat.find_min (exists_gap T r) hm
  simp only [Decidable.not_not] at this
  have he : r + (i - r) = i := by omega
  rwa [he] at this

theorem reachFrom_unique {T : List Int} {r n : Nat}
    (h1 : r ≤ n) (h2 : ((n : Nat) : Int) ∉ T)
    (h3 : ∀ i, r ≤ i → i < n → ((i : Nat) : Int) ∈ T) :
    reachFrom T r = n := by
  have hkey : ((r + (n - r) : Nat) : Int) ∉ T := by
    rw [show r + (n - r) = n from by omega]
    exact h2
  have hle : reachFrom T r ≤ n := by
    have := Nat.find_min' (exists_gap T r) hkey
    simp [reachFrom]
    omega
  rcases Nat.lt_or_ge (reachFrom T r) n with hlt | hge
  · exact absurd (h3 _ (reachFrom_ge T r) hlt) (reachFrom_not_mem T r)
  · omega

theorem reachFrom_eq_self {T : List Int} {r : Nat} (h : ((r : Nat) : Int) ∉ T) :
    reachFrom T r = r :=
  reachFrom_unique le_rfl h (fun i hi1 hi2 => absurd hi2 (by omega))

theorem reachFrom_succ_of_mem {T : List Int} {r : Nat} (h : ((r : Nat) : Int) ∈ T) :
    reachFrom T r = reachFrom T (r + 1) := by
  refine reachFrom_unique ?_ (reachFrom_not_mem T (r + 1)) ?_
  · have := reachFrom_ge T (r + 1)
    omega
  · intro i hi1 hi2
    rcases Nat.lt_or_ge i (r + 1) with hlt | hge
    · have : i = r := by omega
      rwa [this]
    · exact mem_of_lt_reachFrom hge hi2

/-! ## Association-list lemmas for the pending map -/

theorem lookupKey_cons (k : Int) (p : Int × List Nat) (rest : List (Int × List Nat)) :
    lookupKey k (p :: rest) = if k = p.1 then some p.2 else lookupKey k rest := by
  obtain ⟨k1, v⟩ := p
  by_cases h : k = k1
  · simp [lookupKey, List.lookup, h]
  · have hbeq : (k == k1) = false := beq_eq_false_iff_ne.mpr h
    simp only [lookupKey, List.lookup, hbeq]
    rw [if_neg (by simpa using h)]

theorem eraseKey_cons (k2 : Int) (p : Int × List Nat) (rest : List (Int × List Nat)) :
    eraseKey k2 (p :: rest) =
      if p.1 = k2 then eraseKey k2 rest else p :: eraseKey k2 rest := by
  by_cases h : p.1 = k2 <;> simp [eraseKey, List.filter, h]

theorem lookupKey_eraseKey (k k2 : Int) (l : List (Int × List Nat)) :
    lookupKey k (eraseKey k2 l) = if k = k2 then none else lookupKey k l := by
  induction l with
  | nil => simp [lookupKey, eraseKey]
  | cons p rest ih =>
    rw [eraseKey_cons]
    by_cases hp : p.1 = k2
    · rw [if_pos hp, ih, lookupKey_cons]
      by_cases hk : k = k2
      · simp [hk]
      · rw [if_neg hk, if_neg hk, if_neg (by omega)]
    · rw [if_neg hp, lookupKey_cons, lookupKey_cons]
      by_cases hkp : k = p.1
      · have hk : ¬ k = k2 := by omega
        simp [hkp, hk, hp]
      · rw [if_neg hkp, if_neg hkp, ih]

theorem lookupKey_putKey (k k2 : Int) (v : List Nat) (l : List (Int × List Nat)) :
    lookupKey k (putKey k2 v l) = if k = k2 then some v else lookupKey k l := by
  rw [putKey]
  induction l with
  | nil =>
    by_cases hk : k = k2
    · simp [eraseKey, lookupKey, List.lookup, hk]
    · have hbeq : (k == k2) = false := beq_eq_false_iff_ne.mpr hk
      simp [eraseKey, lookupKey, List.lookup, hbeq, hk]
  | cons p rest ih =>
    rw [eraseKey_cons]
    by_cases hp : p.1 = k2
    · rw [if_pos hp, ih, lookupKey_cons]
      by_cases hk : k = k2
      · simp [hk]
      · rw [if_neg hk, if_neg hk, if_neg (by omega)]
    · rw [if_neg hp, List.cons_append, lookupKey_cons, lookupKey_cons]
      by_cases hkp : k = p.1
      · have hk : ¬ k = k2 := by omega
        simp [hkp, hk, hp]
      · rw [if_neg hkp, if_neg hkp, ih]

/-- Characterization of the pending map: it holds exactly the arrived
sequence numbers at or beyond `r` (the next id to play), with the payload of
id `k` being `f k`. -/
def pendInv (f : Nat → List Nat) (T : List Int) (r : Nat)
    (pend : List (Int × List Nat)) : Prop :=
  ∀ k : Int, lookupKey k pend =
    if k ∈ T ∧ (r : Int) ≤ k then some (f k.toNat) else none

theorem drain_spec (f : Nat → List Nat) (T : List Int) :
    ∀ (n : Nat) (st : PlayState) (r : Nat),
      st.pending.length ≤ n →
      st.last = (r : Int) - 1 →
      pendInv f T r st.pending →
      (drain st).last = (reachFrom T r : Int) - 1 ∧
      (drain st).played = st.played ++
        (List.range' r (reachFrom T r - r)).map (fun i : Nat => ((i : Int), f i)) ∧
      pendInv f T (reachFrom T r) (drain st).pending := by
  intro n
  induction n with
  | zero =>
    intro st r hlen hlast hinv
    have hpe : st.pending = [] := List.length_eq_zero.mp (by omega)
    have hnotmem : ((r : Nat) : Int) ∉ T := by
      intro hmem
      have h0 := hinv (r : Int)
      rw [hpe, if_pos ⟨hmem, le_refl _⟩] at h0
      simp [lookupKey, List.lookup] at h0
    have hreach : reachFrom T r = r := reachFrom_eq_self hnotmem
    have hstop : drain st = st := by
      rw [drain]
      split
      · rfl
      · rename_i a heq
        rw [hpe] at heq
        simp [lookupKey, List.lookup] at heq
    rw [hstop, hreach]
    refine ⟨hlast, by simp, ?_⟩
    exact hinv
  | succ n ih =>
    intro st r hlen hlast hinv
    have hl1 : st.last + 1 = (r : Int) := by omega
    by_cases hmem : ((r : Nat) : Int) ∈ T
    · have hlook : lookupKey (st.last + 1) st.pending = some (f r) := by
        rw [hl1, hinv, if_pos ⟨hmem, le_refl _⟩]
        simp
      have hreach : reachFrom T r = reachFrom T (r + 1) := reachFrom_succ_of_mem hmem
      have hge : r + 1 ≤ reachFrom T (r + 1) := reachFrom_ge T (r + 1)
      rw [drain]
      split
      · rename_i heq
        rw [hlook] at heq
        exact absurd heq (by simp)
      · rename_i a heq
        rw [hlook] at heq
        obtain rfl := (Option.some.inj heq).symm
        have hlen2 : (eraseKey (st.last + 1) st.pending).length ≤ n := by
          have := eraseKey_length_lt hlook
          omega
        have hlast2 : st.last + 1 = ((r + 1 : Nat) : Int) - 1 := by push_cast; omega
        have hinv2 : pendInv f T (r + 1) (eraseKey (st.last + 1) st.pending) := by
          intro k
          rw [lookupKey_eraseKey, hl1]
          by_cases hk : k = (r : Int)
          · rw [if_pos hk, if_neg]
            rintro ⟨hk1, hk2⟩
            rw [hk] at hk2
            push_cast at hk2
            omega
          · rw [if_neg hk, hinv]
            rw [if_congr (show (k ∈ T ∧ (r : Int) ≤ k) ↔ (k ∈ T ∧ ((r + 1 : Nat) : Int) ≤ k)
                from ⟨fun hh => ⟨hh.1, by push_cast; omega⟩,
                      fun hh => ⟨hh.1, by push_cast at hh ⊢; omega⟩⟩) rfl rfl]
        obtain ⟨g1, g2, g3⟩ := ih
          { last := st.last + 1,
            pending := eraseKey (st.last + 1) st.pending,
            played := st.played ++ [(st.last + 1, f r)] }
          (r + 1) hlen2 hlast2 hinv2
        refine ⟨by rw [g1, hreach], ?_, by rw [hreach]; exact g3⟩
        rw [g2, hreach]
        simp only []
        rw [show reachFrom T (r + 1) - r = (reachFrom T (r + 1) - (r + 1)) + 1 from by omega,
            List.range'_succ]
        simp only [List.map_cons, hl1]
        rw [List.append_assoc]
        rfl
    · have hlook : lookupKey (st.last + 1) st.pending = none := by
        rw [hl1, hinv, if_neg]
        rintro ⟨a, _⟩
        exact hmem a
      have hreach : reachFrom T r = r := reachFrom_eq_self hmem
      have hstop : drain st = st := by
        rw [drain]
        split
        · rfl
        · rename_i a heq
          rw [hlook] at heq
          exact absurd heq (by simp)
      rw [hstop, hreach]
      exact ⟨hlast, by simp, hinv⟩

/-- Invariant of the playback consumer after the set `T` of sequence numbers
has arrived: everything below the first gap has been played, in order, and
the pending map holds exactly the arrived numbers beyond the gap. -/
def consumerInv (f : Nat → List Nat) (T : List Int) (st : PlayState) : Prop :=
  st.last = (reachFrom T 0 : Int) - 1 ∧
  st.played = (List.range (reachFrom T 0)).map (fun i : Nat => ((i : Int), f i)) ∧
  pendInv f T (reachFrom T 0) st.pending

theorem handleArrival_spec (f : Nat → List Nat) (T : List Int) (st : PlayState)
    (a : Int) (ha0 : 0 ≤ a) (haT : a ∉ T)
    (hinv : consumerInv f T st) :
    consumerInv f (T ++ [a]) (handleArrival st (a, f a.toNat)) := by
  obtain ⟨hlast, hplay, hpend⟩ := hinv
  set r := reachFrom T 0 with hr
  have hbelow : ∀ i : Nat, i < r → ((i : Nat) : Int) ∈ T :=
    fun i hi => mem_of_lt_reachFrom (Nat.zero_le i) hi
  have hrnot : ((r : Nat) : Int) ∉ T := reachFrom_not_mem T 0
  by_cases hcase : a = (r : Int)
  · -- the arrival is the next expected id: play it and drain
    have hcond : a = st.last + 1 := by omega
    rw [handleArrival, if_pos hcond]
    have hlast2 : a = ((r + 1 : Nat) : Int) - 1 := by push_cast; omega
    have hpend2 : pendInv f (T ++ [a]) (r + 1) st.pending := by
      intro k
      rw [hpend]
      by_cases hk : k = a
      · subst hk
        rw [if_neg (by rintro ⟨h1, _⟩; rw [hcase] at h1; exact hrnot h1),
            if_neg (by rintro ⟨_, h2⟩; rw [hcase] at h2; push_cast at h2; omega)]
      · have hkr : k ≠ (r : Int) := by rw [← hcase]; exact hk
        have hiff : (k ∈ T ∧ (r : Int) ≤ k) ↔
            (k ∈ T ++ [a] ∧ ((r + 1 : Nat) : Int) ≤ k) := by
          constructor
          · rintro ⟨h1, h2⟩
            refine ⟨List.mem_append_left _ h1, ?_⟩
            push_cast
            omega
          · rintro ⟨h1, h2⟩
            rcases List.mem_append.mp h1 with h1a | h1b
            · refine ⟨h1a, by push_cast at h2; omega⟩
            · exact absurd (List.mem_singleton.mp h1b) hk
        rw [if_congr hiff rfl rfl]
    obtain ⟨g1, g2, g3⟩ := drain_spec f (T ++ [a]) st.pending.length
      { last := a, pending := st.pending, played := st.played ++ [(a, f a.toNat)] }
      (r + 1) le_rfl hlast2 hpend2
    have hreq : reachFrom (T ++ [a]) 0 = reachFrom (T ++ [a]) (r + 1) := by
      refine reachFrom_unique (Nat.zero_le _)
        (reachFrom_not_mem (T ++ [a]) (r + 1)) ?_
      intro i hi1 hi2
      rcases Nat.lt_or_ge i (r + 1) with hlt | hge2
      · rcases Nat.lt_or_ge i r with hlt2 | hge3
        · exact List.mem_append_left _ (hbelow i hlt2)
        · have hir : i = r := by omega
          subst hir
          refine List.mem_append_right _ ?_
          rw [← hcase]
          exact List.mem_singleton_self _
      · exact mem_of_lt_reachFrom hge2 hi2
    refine ⟨by rw [g1, hreq], ?_, by rw [hreq]; exact g3⟩
    rw [g2]
    simp only []
    rw [hplay, hreq]
    obtain ⟨d, hd⟩ : ∃ d, reachFrom (T ++ [a]) (r + 1) = (r + 1) + d :=
      ⟨reachFrom (T ++ [a]) (r + 1) - (r + 1), by
        have := reachFrom_ge (T ++ [a]) (r + 1)
        omega⟩
    rw [hd, Nat.add_sub_cancel_left, List.range_eq_range', List.range_eq_range',
        show r + 1 + d = d + (r + 1) from by omega,
        ← List.range'_append 0 (r + 1) d 1]
    rw [show 0 + 1 * (r + 1) = r + 1 from by omega,
        show r + 1 = 1 + r from by omega,
        ← List.range'_append 0 r 1 1]
    rw [show 0 + 1 * r = r from by omega, show List.range' r 1 = [r] from rfl]
    simp only [List.map_append, List.map_cons, List.map_nil]
    rw [show ((r : Int), f r) = (a, f a.toNat) from by rw [hcase]; simp]
  · -- out-of-order arrival: store it in the pending map
    have hcond : ¬ a = st.last + 1 := by omega
    rw [handleArrival, if_neg hcond]
    have hra : (r : Int) < a := by
      rcases lt_or_ge a (r : Int) with hlt | hge
      · exfalso
        have h1 : a.toNat < r := by omega
        have h2 := hbelow a.toNat h1
        rw [show ((a.toNat : Nat) : Int) = a from by omega] at h2
        exact haT h2
      · omega
    have hreq : reachFrom (T ++ [a]) 0 = r := by
      refine reachFrom_unique (Nat.zero_le _) ?_ ?_
      · intro hmem2
        rcases List.mem_append.mp hmem2 with h1 | h1
        · exact hrnot h1
        · rw [List.mem_singleton.mp h1] at hcase
          exact hcase rfl
      · intro i hi1 hi2
        exact List.mem_append_left _ (hbelow i hi2)
    refine ⟨by simpa [hreq] using hlast, by simpa [hreq] using hplay, ?_⟩
    rw [hreq]
    intro k
    simp only []
    rw [lookupKey_putKey]
    by_cases hk : k = a
    · rw [if_pos hk, if_pos]
      · rw [hk]
      · subst hk
        exact ⟨List.mem_append_right _ (List.mem_singleton_self _), by omega⟩
    · rw [if_neg hk, hpend]
      have hiff : (k ∈ T ∧ (r : Int) ≤ k) ↔ (k ∈ T ++ [a] ∧ (r : Int) ≤ k) := by
        constructor
        · rintro ⟨h1, h2⟩
          exact ⟨List.mem_append_left _ h1, h2⟩
        · rintro ⟨h1, h2⟩
          rcases List.mem_append.mp h1 with h1a | h1b
          · exact ⟨h1a, h2⟩
          · exact absurd (List.mem_singleton.mp h1b) hk
      rw [if_congr hiff rfl rfl]

theorem playProcess_inv (f : Nat → List Nat) :
    ∀ (arr : List (Int × List Nat)) (T : List Int) (st : PlayState),
      (∀ p ∈ arr, 0 ≤ p.1 ∧ p.1 ∉ T ∧ p.2 = f p.1.toNat) →
      (arr.map Prod.fst).Nodup →
      consumerInv f T st →
      consumerInv f (T ++ arr.map Prod.fst) (playProcess st arr) := by
  intro arr
  induction arr with
  | nil =>
    intro T st h1 h2 h3
    simpa [playProcess] using h3
  | cons p rest ih =>
    intro T st h1 h2 h3
    obtain ⟨a, v⟩ := p
    obtain ⟨ha0, haT, hav⟩ := h1 (a, v) (List.mem_cons_self _ _)
    simp only [] at ha0 haT hav
    subst hav
    have hstep := handleArrival_spec f T st a ha0 haT h3
    have hhead : ∀ q ∈ rest, q.1 ≠ a := by
      intro q hq hqa
      simp only [List.map_cons, List.nodup_cons] at h2
      exact h2.1 (hqa ▸ List.mem_map_of_mem Prod.fst hq)
    have h1' : ∀ q ∈ rest, 0 ≤ q.1 ∧ q.1 ∉ T ++ [a] ∧ q.2 = f q.1.toNat := by
      intro q hq
      obtain ⟨hq0, hqT, hqv⟩ := h1 q (List.mem_cons_of_mem _ hq)
      refine ⟨hq0, ?_, hqv⟩
      intro hmem
      rcases List.mem_append.mp hmem with h | h
      · exact hqT h
      · exact hhead q hq (List.mem_singleton.mp h)
    have h2' : (rest.map Prod.fst).Nodup := by
      simp only [List.map_cons, List.nodup_cons] at h2
      exact h2.2
    have hrec := ih (T ++ [a]) (handleArrival st (a, f a.toNat)) h1' h2' hstep
    have hfold : playProcess st ((a, f a.toNat) :: rest)
        = playProcess (handleArrival st (a, f a.toNat)) rest := by
      simp [playProcess]
    rw [hfold]
    simpa [List.append_assoc] using hrec

/-- C1: for N dispatched units with sequence numbers 0..N-1 arriving in any
order, the reassembly consumer plays exactly the units 0..N-1 in
sequence-number order (none repeated, none skipped) and ends with an empty
pending buffer: an arrival equal to `last_chunk_id + 1` is played at once
followed by draining newly playable successors, any other arrival is stored
keyed by its number. -/
theorem c1_ordered_playback (N : Nat) (f : Nat → List Nat)
    (arr : List (Int × List Nat))
    (hperm : List.Perm (arr.map Prod.fst) ((List.range N).map (fun i : Nat => (i : Int))))
    (hpay : ∀ p ∈ arr, p.2 = f p.1.toNat) :
    (playProcess playInit arr).played
        = (List.range N).map (fun i : Nat => ((i : Int), f i)) ∧
    (playProcess playInit arr).pending = [] := by
  have hr0 : reachFrom [] 0 = 0 := reachFrom_eq_self (by simp)
  have hinit : consumerInv f [] playInit := by
    refine ⟨by rw [hr0]; rfl, by rw [hr0]; rfl, ?_⟩
    intro k
    rw [hr0]
    simp [lookupKey, List.lookup, playInit]
  have hmemiff : ∀ x : Int,
      x ∈ arr.map Prod.fst ↔ x ∈ (List.range N).map (fun i : Nat => (i : Int)) :=
    fun x => hperm.mem_iff
  have hnodup : (arr.map Prod.fst).Nodup := by
    refine (List.Perm.nodup_iff hperm).mpr ?_
    refine List.Nodup.map ?_ (List.nodup_range N)
    intro x y hxy
    simpa using hxy
  have harr : ∀ p ∈ arr, 0 ≤ p.1 ∧ p.1 ∉ ([] : List Int) ∧ p.2 = f p.1.toNat := by
    intro p hp
    have hmem : p.1 ∈ arr.map Prod.fst := List.mem_map_of_mem _ hp
    rw [hmemiff] at hmem
    obtain ⟨i, hi, hie⟩ := List.mem_map.mp hmem
    exact ⟨by omega, by simp, hpay p hp⟩
  have hfin := playProcess_inv f arr [] playInit harr hnodup hinit
  simp only [List.nil_append] at hfin
  obtain ⟨hl, hp2, hp3⟩ := hfin
  have hreach : reachFrom (arr.map Prod.fst) 0 = N := by
    refine reachFrom_unique (Nat.zero_le _) ?_ ?_
    · intro hmem
      rw [hmemiff] at hmem
      obtain ⟨i, hi, hie⟩ := List.mem_map.mp hmem
      rw [List.mem_range] at hi
      have : i = N := by omega
      omega
    · intro i hi1 hi2
      rw [hmemiff]
      exact List.mem_map.mpr ⟨i, List.mem_range.mpr hi2, rfl⟩
  constructor
  · rw [hp2, hreach]
  · rw [hreach] at hp3
    cases hpe : (playProcess playInit arr).pending with
    | nil => rfl
    | cons q rest =>
      exfalso
      have hq0 := hp3 q.1
      rw [hpe, lookupKey_cons, if_pos rfl] at hq0
      by_cases hq : q.1 ∈ arr.map Prod.fst ∧ ((N : Nat) : Int) ≤ q.1
      · obtain ⟨hq1, hq2⟩ := hq
        rw [hmemiff] at hq1
        obtain ⟨i, hi, hie⟩ := List.mem_map.mp hq1
        rw [List.mem_range] at hi
        omega
      · rw [if_neg hq] at hq0
        exact Option.noConfusion hq0

theorem c1_ordered_playback_witness :
    (playProcess playInit [((1 : Int), [1]), ((0 : Int), [0])]).played
        = (List.range 2).map (fun i : Nat => ((i : Int), [i])) ∧
    (playProcess playInit [((1 : Int), [1]), ((0 : Int), [0])]).pending = [] :=
  c1_ordered_playback 2 (fun i => [i]) [((1 : Int), [1]), ((0 : Int), [0])]
    (by decide) (by decide)

/-! ## Claim C10 — sequence-number assignment and dropped units -/

theorem mem_map_fst_eraseKey {x k : Int} {l : List (Int × List Nat)}
    (h : x ∈ (eraseKey k l).map Prod.fst) : x ∈ l.map Prod.fst := by
  obtain ⟨p, hp, rfl⟩ := List.mem_map.mp h
  exact List.mem_map_of_mem _ (List.mem_of_mem_filter hp)

theorem drain_played_mem (q : Int × List Nat) :
    ∀ (n : Nat) (st : PlayState), st.pending.length ≤ n →
      q ∈ (drain st).played →
      q ∈ st.played ∨ q.1 ∈ st.pending.map Prod.fst := by
  intro n
  induction n with
  | zero =>
    intro st hlen hq
    have hpe : st.pending = [] := List.length_eq_zero.mp (by omega)
    rw [drain] at hq
    split at hq
    · exact Or.inl hq
    · rename_i a heq
      rw [hpe] at heq
      simp [lookupKey, List.lookup] at heq
  | succ n ih =>
    intro st hlen hq
    rw [drain] at hq
    split at hq
    · exact Or.inl hq
    · rename_i a heq
      have hlen2 : (eraseKey (st.last + 1) st.pending).length ≤ n := by
        have := eraseKey_length_lt heq
        omega
      rcases ih _ hlen2 hq with h1 | h1
      · simp only [] at h1
        rcases List.mem_append.mp h1 with h2 | h2
        · exact Or.inl h2
        · right
          rw [List.mem_singleton.mp h2]
          exact List.mem_map_of_mem _ (lookupKey_mem heq)
      · exact Or.inr (mem_map_fst_eraseKey h1)

theorem handleArrival_played_mem (st : PlayState) (p : Int × List Nat)
    (q : Int × List Nat) (hq : q ∈ (handleArrival st p).played) :
    q ∈ st.played ∨ q.1 = p.1 ∨ q.1 ∈ st.pending.map Prod.fst := by
  rw [handleArrival] at hq
  split at hq
  · rcases drain_played_mem q _ _ le_rfl hq with h1 | h1
    · simp only [] at h1
      rcases List.mem_append.mp h1 with h2 | h2
      · exact Or.inl h2
      · right
        left
        rw [List.mem_singleton.mp h2]
    · exact Or.inr (Or.inr h1)
  · exact Or.inl hq

theorem drain_pending_mem :
    ∀ (n : Nat) (s : PlayState), s.pending.length ≤ n →
      ∀ y, y ∈ (drain s).pending.map Prod.fst → y ∈ s.pending.map Prod.fst := by
  intro n
  induction n with
  | zero =>
    intro s hlen y hy
    have hpe : s.pending = [] := List.length_eq_zero.mp (by omega)
    rw [drain] at hy
    split at hy
    · exact hy
    · rename_i a heq
      rw [hpe] at heq
      simp [lookupKey, List.lookup] at heq
  | succ n ih =>
    intro s hlen y hy
    rw [drain] at hy
    split at hy
    · exact hy
    · rename_i a heq
      have hlen2 : (eraseKey (s.last + 1) s.pending).length ≤ n := by
        have := eraseKey_length_lt heq
        omega
      exact mem_map_fst_eraseKey (ih _ hlen2 y hy)

theorem handleArrival_pending_mem (st : PlayState) (p : Int × List Nat)
    (x : Int) (hx : x ∈ (handleArrival st p).pending.map Prod.fst) :
    x ∈ st.pending.map Prod.fst ∨ x = p.1 := by
  rw [handleArrival] at hx
  split at hx
  · left
    have := drain_pending_mem _ _ le_rfl x hx
    simpa using this
  · simp only [putKey, List.map_append, List.mem_append] at hx
    rcases hx with h1 | h1
    · exact Or.inl (mem_map_fst_eraseKey h1)
    · right
      simpa using h1

theorem playProcess_played_mem :
    ∀ (arr : List (Int × List Nat)) (st : PlayState) (q : Int × List Nat),
      q ∈ (playProcess st arr).played →
      q ∈ st.played ∨ q.1 ∈ st.pending.map Prod.fst ∨ q.1 ∈ arr.map Prod.fst := by
  intro arr
  induction arr with
  | nil =>
    intro st q hq
    exact Or.inl hq
  | cons p rest ih =>
    intro st q hq
    rw [show playProcess st (p :: rest) = playProcess (handleArrival st p) rest
        from by simp [playProcess]] at hq
    rcases ih (handleArrival st p) q hq with h1 | h1 | h1
    · rcases handleArrival_played_mem st p q h1 with h2 | h2 | h2
      · exact Or.inl h2
      · exact Or.inr (Or.inr (by rw [h2]; exact List.mem_cons_self _ _))
      · exact Or.inr (Or.inl h2)
    · rcases handleArrival_pending_mem st p q.1 h1 with h2 | h2
      · exact Or.inr (Or.inl h2)
      · exact Or.inr (Or.inr (by rw [h2]; exact List.mem_cons_self _ _))
    · exact Or.inr (Or.inr (List.mem_cons_of_mem _ h1))

theorem playInit_played_mem (arr : List (Int × List Nat)) (q : Int × List Nat)
    (hq : q ∈ (playProcess playInit arr).played) : q.1 ∈ arr.map Prod.fst := by
  rcases playProcess_played_mem arr playInit q hq with h | h | h
  · simp [playInit] at h
  · simp [playInit] at h
  · exact h

/-- The enumeration property of `chunk_id`: the i-th emitted sentence
receives id `start + i`, over all emitted sentences, before any filtering. -/
theorem numberUnits_enum :
    ∀ (units : List (List Char)) (start : Nat),
      (numberUnits units start).map Prod.fst = List.range' start units.length ∧
      (numberUnits units start).map Prod.snd = units := by
  intro units
  induction units with
  | nil => intro start; simp [numberUnits]
  | cons u us ih =>
    intro start
    rw [numberUnits]
    obtain ⟨h1, h2⟩ := ih (start + 1)
    constructor
    · simp [h1, List.range'_succ]
    · simp [h2]

/-- C10: `chunk_id` is incremented once for every emitted sentence — the
i-th sentence gets id i whether or not the validity filter later drops it —
so the ids of units actually dispatched to synthesis need not be contiguous
from 0 (for "ok。😊！hi。" the dispatched ids are 0 and 2, skipping the
dropped unit's id 1), and the playback consumer only ever plays ids that
actually arrived on the audio queue, so a dropped unit's id is never
played. -/
theorem c10_sequence_numbers :
    (∀ (units : List (List Char)) (start : Nat),
        (numberUnits units start).map Prod.fst = List.range' start units.length ∧
        (numberUnits units start).map Prod.snd = units) ∧
    dispatchedUnits ("ok。😊！hi。".toList)
      = [(0, "ok。".toList), (2, "hi。".toList)] ∧
    (∀ (arr : List (Int × List Nat)) (q : Int × List Nat),
        q ∈ (playProcess playInit arr).played → q.1 ∈ arr.map Prod.fst) := by
  refine ⟨numberUnits_enum, ?_, playInit_played_mem⟩
  rw [dispatchedUnits, streamUnits,
      segmentLoop_some (show earliestDelim "ok。😊！hi。".toList = some 2 from by decide),
      show "ok。😊！hi。".toList.drop 3 = "😊！hi。".toList from by decide,
      segmentLoop_some (show earliestDelim "😊！hi。".toList = some 1 from by decide),
      show "😊！hi。".toList.drop 2 = "hi。".toList from by decide,
      segmentLoop_some (show earliestDelim "hi。".toList = some 2 from by decide),
      show "hi。".toList.drop 3 = ([] : List Char) from by decide,
      segmentLoop_none earliestDelim_nil]
  decide
